import Mathlib

/-!
Verification of the WhatsApp watch-trade extraction pipeline
(`Extract_Watch_ID_1751652793399.py`).

The core pipeline is shallowly embedded over `List Char` (text),
`Option`/`Except` (fallible steps and file I/O), and `Nat` (prices).
Each Python regex used by the source is compiled by hand into an
executable leftmost-match scanner over `List Char`; the deterministic
scanners implement the backtracking semantics of the concrete patterns
(greedy repetitions whose follow-set is disjoint from the repeated
class are forced-maximal, alternations are tried in pattern order with
fallback, trailing word-boundaries shrink the final repetition).
Word characters (`\w`), digits and whitespace are modelled at ASCII
level, matching the transcripts the tool processes.  Python's
`int(float(g) * mult)` on decimal literals is modelled faithfully as
IEEE-754 binary64 arithmetic in exact integer form: the decimal is
converted to the nearest double (round-to-nearest, ties-to-even,
subnormals included), multiplied by the exactly representable factor
with a second correct rounding, and truncated toward zero.  The one
idealisation is at the top of the range: a literal whose value rounds
to or beyond 2^1024 makes the program raise `OverflowError` at
`int(inf)` (caught by the caller's `try/except`), while the model keeps
the unbounded-exponent rounding; below that threshold the two agree
exactly.
-/

set_option maxRecDepth 20000

namespace WatchParse

/-- conversion from a string literal to the character-list text type. -/
def sL (s : String) : List Char := s.data

/-- Whitespace characters of the Python regex class `\s` and `str.strip`
(ASCII part). -/
def isPySpace (c : Char) : Bool :=
  c == ' ' || c == '\t' || c == '\n' || c == '\r' || c == '\x0b' || c == '\x0c'

/-- Word characters for the regex word boundary `\b` (ASCII model of `\w`). -/
def isWordC (c : Char) : Bool := c.isAlphanum || c == '_'

/-- Word-character test on an optional character; an absent character
(start or end of the text) counts as a non-word character. -/
def wordOpt : Option Char → Bool
  | none => false
  | some c => isWordC c

/-- After a word character has just been consumed, `\b` holds iff the next
character is absent or is not a word character. -/
def bAfterWord : List Char → Bool
  | [] => true
  | c :: _ => !isWordC c

/-- Split into the maximal leading run satisfying `p` and the rest. -/
def spanP (p : Char → Bool) (s : List Char) : List Char × List Char :=
  (s.takeWhile p, s.dropWhile p)

/-- Numeric value of a run of decimal digits (Python `int`). -/
def digitsToNat (ds : List Char) : ℕ :=
  ds.foldl (fun n c => 10 * n + (c.toNat - 48)) 0

def toLowerL (s : List Char) : List Char := s.map Char.toLower

def toUpperL (s : List Char) : List Char := s.map Char.toUpper

/-- `n` is a leading part of `s` (character-list version). -/
def prefEq : List Char → List Char → Bool
  | [], _ => true
  | _ :: _, [] => false
  | a :: as, b :: bs => a == b && prefEq as bs

/-- `n` occurs as a contiguous run inside `s` (Python `in` on strings). -/
def containsL (n : List Char) : List Char → Bool
  | [] => prefEq n []
  | c :: t => prefEq n (c :: t) || containsL n t

/-- Case-insensitive version of `prefEq` (regex `IGNORECASE`, ASCII). -/
def ciPrefEq : List Char → List Char → Bool
  | [], _ => true
  | _ :: _, [] => false
  | a :: as, b :: bs => a.toLower == b.toLower && ciPrefEq as bs

/-- The literal word `pid` matches at the current position of the text
(`prev` is the character just before the position), with regex word
boundaries on both sides: `\b<pid>\b` with `IGNORECASE`.  Used with a
non-empty `pid`, as in the pipeline. -/
def wholeWordAt (pid : List Char) (prev : Option Char) (s : List Char) : Bool :=
  ciPrefEq pid s
  && (wordOpt prev != wordOpt s.head?)
  && (wordOpt (s.take pid.length).getLast? != wordOpt (s.drop pid.length).head?)

/-- Scan all positions of the text for a whole-word occurrence of `pid`. -/
def hasWW (pid : List Char) : Option Char → List Char → Bool
  | prev, [] => wholeWordAt pid prev []
  | prev, c :: t => wholeWordAt pid prev (c :: t) || hasWW pid (some c) t

/-- `re.search(rf'\b{re.escape(pid)}\b', s, re.IGNORECASE)` as a Boolean. -/
def containsWholeWord (pid s : List Char) : Bool := hasWW pid none s

/-- Leftmost-match driver: try the position matcher `f` at every position
of the text, earliest first, threading the previous character for `\b`. -/
def scanS {α : Type} (f : Option Char → List Char → Option α) :
    Option Char → List Char → Option α
  | prev, [] => f prev []
  | prev, c :: t =>
    match f prev (c :: t) with
    | some v => some v
    | none => scanS f (some c) t

/-- Round the non-negative rational `a / b` to the nearest integer,
ties to even (`b > 0`). -/
def roundRatNE (a b : ℕ) : ℕ :=
  let q := a / b
  let r := a % b
  if 2 * r < b then q
  else if b < 2 * r then q + 1
  else if q % 2 = 0 then q else q + 1

def bitLenAux : ℕ → ℕ → ℕ
  | 0, _ => 0
  | f + 1, n => if n = 0 then 0 else bitLenAux f (n / 2) + 1

/-- Number of binary digits of `n` (0 for 0); the fuel `n + 1` always
suffices and only as many steps as there are digits are taken. -/
def bitLen (n : ℕ) : ℕ := bitLenAux (n + 1) n

/-- `⌊log₂ (n / d)⌋` for positive `n`, `d`. -/
def floorLog2 (n d : ℕ) : ℤ :=
  let c : ℤ := (bitLen n : ℤ) - (bitLen d : ℤ)
  let ok : Bool :=
    if 0 ≤ c then decide (d * 2 ^ c.toNat ≤ n) else decide (d ≤ n * 2 ^ (-c).toNat)
  if ok then c else c - 1

/-- Round `(n / d) · 2^s` to the nearest integer, ties to even. -/
def scaleRound (n d : ℕ) (s : ℤ) : ℕ :=
  if 0 ≤ s then roundRatNE (n * 2 ^ s.toNat) d else roundRatNE n (d * 2 ^ (-s).toNat)

/-- Round the non-negative rational `n / d` to IEEE-754 binary64
(round-to-nearest, ties-to-even), returning `(m, g)` with value
`m · 2^g`: on the normal binades the 53-bit mantissa grid of the
value's binade, below `2^(-1022)` the fixed subnormal grid `2^(-1074)`
(so tiny values round to subnormals or to zero).  The exponent is not
capped above (see the module comment on `OverflowError`). -/
def roundPosDouble (n d : ℕ) : ℕ × ℤ :=
  if n = 0 then (0, 0)
  else
    let e := floorLog2 n d
    if e < -1022 then (scaleRound n d 1074, -1074)
    else
      let m := scaleRound n d (52 - e)
      if m = 2 ^ 53 then (2 ^ 52, e - 51) else (m, e - 52)

/-- IEEE binary64 multiplication of the double `m · 2^g` by the exactly
representable integer `mult`: the exact product, correctly rounded. -/
def mulRound (m : ℕ) (g : ℤ) (mult : ℕ) : ℕ × ℤ :=
  if 0 ≤ g then roundPosDouble (m * mult * 2 ^ g.toNat) 1
  else roundPosDouble (m * mult) (2 ^ (-g).toNat)

/-- Python `int()` of the non-negative double `m · 2^g`: truncation
toward zero. -/
def truncDouble (m : ℕ) (g : ℤ) : ℕ :=
  if 0 ≤ g then m * 2 ^ g.toNat else m / 2 ^ (-g).toNat

/-- `int(float("<a>.<b>") * mult)` for decimal digit runs `a`, `b`:
convert the decimal to the nearest binary64 double, multiply by `mult`
in double arithmetic, truncate to integer. -/
def decValue (a b : List Char) (mult : ℕ) : ℕ :=
  let p := roundPosDouble (digitsToNat a * 10 ^ b.length + digitsToNat b) (10 ^ b.length)
  let q := mulRound p.1 p.2 mult
  truncDouble q.1 q.2

/-- Position matcher for `(\d+\.\d+)\s*<suf>` (price rules 1 and 2). -/
def tryDecSuf (suf : Char) (mult : ℕ) (_ : Option Char) (s : List Char) : Option ℕ :=
  let (a, r1) := spanP Char.isDigit s
  if a.isEmpty then none else
  match r1 with
  | '.' :: r2 =>
    let (b, r3) := spanP Char.isDigit r2
    if b.isEmpty then none else
    match (spanP isPySpace r3).2 with
    | c :: _ => if c == suf then some (decValue a b mult) else none
    | [] => none
  | _ => none

/-- Position matcher for `(\d+)\s*<suf>\b` (price rules 3 and 4). -/
def tryIntSuf (suf : Char) (mult : ℕ) (_ : Option Char) (s : List Char) : Option ℕ :=
  let (a, r1) := spanP Char.isDigit s
  if a.isEmpty then none else
  match (spanP isPySpace r1).2 with
  | c :: r2 => if c == suf && bAfterWord r2 then some (digitsToNat a * mult) else none
  | [] => none

/-- Position matcher for `(\d+\.\d+)\s*mill` (price rule 5). -/
def tryDecMill (_ : Option Char) (s : List Char) : Option ℕ :=
  let (a, r1) := spanP Char.isDigit s
  if a.isEmpty then none else
  match r1 with
  | '.' :: r2 =>
    let (b, r3) := spanP Char.isDigit r2
    if b.isEmpty then none else
    if prefEq (sL "mill") (spanP isPySpace r3).2 then some (decValue a b 1000000) else none
  | _ => none

/-- The currency-code alternation `(?:hkd|usd|eur|chf|usdt)`, in pattern
order. -/
def curWords : List (List Char) :=
  [sL "hkd", sL "usd", sL "eur", sL "chf", sL "usdt"]

/-- `(\d{5,})` at the current position: at least five digits, the greedy
run being captured whole. -/
def digitRunGE5 (s : List Char) : Option ℕ :=
  let (d, _) := spanP Char.isDigit s
  if 5 ≤ d.length then some (digitsToNat d) else none

/-- Continuation after a currency word for rule 6: `[: ]\s*(\d{5,})`. -/
def curSepAfter (r : List Char) : Option ℕ :=
  match r with
  | c :: r2 => if c == ':' || c == ' ' then digitRunGE5 ((spanP isPySpace r2).2) else none
  | [] => none

/-- Try the alternatives in order; on continuation failure fall through to
the next alternative (regex alternation backtracking). -/
def tryAlts (cont : List Char → Option ℕ) (s : List Char) :
    List (List Char) → Option ℕ
  | [] => none
  | w :: ws =>
    match (if prefEq w s then cont (s.drop w.length) else none) with
    | some v => some v
    | none => tryAlts cont s ws

/-- Position matcher for `(?:hkd|usd|eur|chf|usdt)[: ]\s*(\d{5,})` (rule 6). -/
def tryCurSep (_ : Option Char) (s : List Char) : Option ℕ :=
  tryAlts curSepAfter s curWords

/-- Position matcher for `(?:hkd|usd|eur|chf|usdt)(\d{5,})` (rule 7). -/
def tryCurDirect (_ : Option Char) (s : List Char) : Option ℕ :=
  tryAlts digitRunGE5 s curWords

/-- Position matcher for `\b(\d{6,})\b` (rule 8). -/
def tryBareRun (prev : Option Char) (s : List Char) : Option ℕ :=
  if wordOpt prev then none else
  let (d, r) := spanP Char.isDigit s
  if 6 ≤ d.length then (if bAfterWord r then some (digitsToNat d) else none) else none

/-- `text.replace(',', '').lower()` — the normalisation step of
`parse_price`. -/
def normPrice (t : List Char) : List Char :=
  toLowerL (t.filter (fun c => c != ','))

def priceRule1 (n : List Char) : Option ℕ := scanS (tryDecSuf 'k' 1000) none n
def priceRule2 (n : List Char) : Option ℕ := scanS (tryDecSuf 'm' 1000000) none n
def priceRule3 (n : List Char) : Option ℕ := scanS (tryIntSuf 'k' 1000) none n
def priceRule4 (n : List Char) : Option ℕ := scanS (tryIntSuf 'm' 1000000) none n
def priceRule5 (n : List Char) : Option ℕ := scanS tryDecMill none n
def priceRule6 (n : List Char) : Option ℕ := scanS tryCurSep none n
def priceRule7 (n : List Char) : Option ℕ := scanS tryCurDirect none n
def priceRule8 (n : List Char) : Option ℕ := scanS tryBareRun none n

/-- `parse_price`: normalise, then try the eight ordered rules, first
match wins, `0` when none match. -/
def parse_price (t : List Char) : ℕ :=
  match priceRule1 (normPrice t) with
  | some v => v
  | none =>
  match priceRule2 (normPrice t) with
  | some v => v
  | none =>
  match priceRule3 (normPrice t) with
  | some v => v
  | none =>
  match priceRule4 (normPrice t) with
  | some v => v
  | none =>
  match priceRule5 (normPrice t) with
  | some v => v
  | none =>
  match priceRule6 (normPrice t) with
  | some v => v
  | none =>
  match priceRule7 (normPrice t) with
  | some v => v
  | none =>
  match priceRule8 (normPrice t) with
  | some v => v
  | none => 0

def digitVal (c : Char) : ℕ := c.toNat - 48

def digitChar (n : ℕ) : Char := Char.ofNat (48 + n)

/-- Python `f"20{v:02d}"` / `f"19{v:02d}"` selection for a two-digit year. -/
def fmtShortYear (v : ℕ) : List Char :=
  (if v < 50 then sL "20" else sL "19") ++ [digitChar (v / 10), digitChar (v % 10)]

def isYchar (c : Char) : Bool := c == 'y' || c == 'Y'

/-- Position matcher for `\b(20\d{2})\b` (year rule 1). -/
def tryYear4 (prev : Option Char) (s : List Char) : Option (List Char) :=
  if wordOpt prev then none else
  match s with
  | '2' :: '0' :: a :: b :: r =>
    if a.isDigit && b.isDigit && bAfterWord r then some ['2', '0', a, b] else none
  | _ => none

/-- Position matcher for `(20\d{2})/\d{2}` (year rule 2). -/
def tryYearSlash (_ : Option Char) (s : List Char) : Option (List Char) :=
  match s with
  | '2' :: '0' :: a :: b :: '/' :: c :: d :: _ =>
    if a.isDigit && b.isDigit && c.isDigit && d.isDigit then some ['2', '0', a, b] else none
  | _ => none

/-- Position matcher for `\b(\d{1,2})(?:y|Y)\b` (year rule 3), greedy on
the digit count with fallback to a single digit. -/
def tryYearYY (prev : Option Char) (s : List Char) : Option (List Char) :=
  if wordOpt prev then none else
  match s with
  | d1 :: rest =>
    if d1.isDigit then
      match rest with
      | d2 :: y :: r =>
        if d2.isDigit && isYchar y && bAfterWord r then
          some (fmtShortYear (10 * digitVal d1 + digitVal d2))
        else if isYchar d2 && bAfterWord (y :: r) then
          some (fmtShortYear (digitVal d1))
        else none
      | [y] => if isYchar y then some (fmtShortYear (digitVal d1)) else none
      | [] => none
    else none
  | [] => none

/-- Position matcher for `(20\d{2})(?:year|yr)` with `IGNORECASE`
(year rule 4). -/
def tryYearWord (_ : Option Char) (s : List Char) : Option (List Char) :=
  match s with
  | '2' :: '0' :: a :: b :: r =>
    if a.isDigit && b.isDigit && (ciPrefEq (sL "year") r || ciPrefEq (sL "yr") r)
    then some ['2', '0', a, b] else none
  | _ => none

def yearRule1 (t : List Char) : Option (List Char) := scanS tryYear4 none t
def yearRule2 (t : List Char) : Option (List Char) := scanS tryYearSlash none t
def yearRule3 (t : List Char) : Option (List Char) := scanS tryYearYY none t
def yearRule4 (t : List Char) : Option (List Char) := scanS tryYearWord none t

/-- `parse_year`: four ordered rules, first match wins, empty string when
none match. -/
def parse_year (t : List Char) : List Char :=
  match yearRule1 t with
  | some y => y
  | none =>
  match yearRule2 t with
  | some y => y
  | none =>
  match yearRule3 t with
  | some y => y
  | none =>
  match yearRule4 t with
  | some y => y
  | none => []

/-- `parse_currency`: lower-cased substring scan in fixed priority,
defaulting to HKD. -/
def parse_currency (t : List Char) : List Char :=
  let l := toLowerL t
  if containsL (sL "usdt") l then sL "USDT"
  else if containsL (sL "usd") l || containsL (sL "$") l then sL "USD"
  else if containsL (sL "eur") l || containsL (sL "€") l then sL "EUR"
  else if containsL (sL "chf") l then sL "CHF"
  else if containsL (sL "gbp") l || containsL (sL "£") l then sL "GBP"
  else sL "HKD"

/-- The fixed variant vocabulary, in source order. -/
def variantWords : List (List Char) :=
  [sL "BLUE", sL "BLACK", sL "GREEN", sL "WHITE", sL "RED", sL "GREY",
   sL "GRAY", sL "JUB", sL "OYS", sL "RG", sL "TI", sL "WG"]

def variantScan (u : List Char) : List (List Char) → List Char
  | [] => []
  | v :: vs =>
    if containsWholeWord v u then (if v == sL "GRAY" then sL "GREY" else v)
    else variantScan u vs

/-- `parse_variant`: upper-case the text and whole-word match the fixed
vocabulary in order; GRAY normalises to GREY. -/
def parse_variant (t : List Char) : List Char := variantScan (toUpperL t) variantWords

/-- `parse_condition`: lower-cased substring scan in fixed priority. -/
def parse_condition (t : List Char) : List Char :=
  let l := toLowerL t
  if containsL (sL "like new") l then sL "Like New"
  else if containsL (sL "used") l then sL "Used"
  else if containsL (sL "full set") l || containsL (sL "fullset") l then sL "Full Set"
  else if containsL (sL "mint") l then sL "Mint"
  else if containsL (sL "new") l then sL "New"
  else if containsL (sL "only watch") l then sL "Only Watch"
  else sL ""

/-- Python `str.splitlines` (common terminators `\r\n`, `\r`, `\n`;
terminators are removed, a trailing terminator produces no extra line). -/
def splitlinesL : List Char → List (List Char)
  | [] => []
  | '\r' :: '\n' :: t => [] :: splitlinesL t
  | '\r' :: t => [] :: splitlinesL t
  | '\n' :: t => [] :: splitlinesL t
  | c :: t =>
    match splitlinesL t with
    | [] => [[c]]
    | h :: r => (c :: h) :: r

/-- Python `line.split("//")`. -/
def splitDS : List Char → List (List Char)
  | [] => [[]]
  | '/' :: '/' :: t => [] :: splitDS t
  | c :: t =>
    match splitDS t with
    | [] => [[c]]
    | h :: r => (c :: h) :: r

/-- Python `str.strip()`. -/
def stripL (s : List Char) : List Char :=
  ((s.dropWhile isPySpace).reverse.dropWhile isPySpace).reverse

/-- Concatenated image of `f` over a list of lines. -/
def catMap (f : List Char → List (List Char)) : List (List Char) → List (List Char)
  | [] => []
  | l :: t => f l ++ catMap f t

/-- Pieces of one line kept by `split_segments`: split on `//`, strip,
keep the pieces containing `pid` as a whole word. -/
def lineSegs (pid line : List Char) : List (List Char) :=
  ((splitDS line).map stripL).filter (fun p => containsWholeWord pid p)

/-- `split_segments`: intra-line segmentation over all body lines. -/
def split_segments (body pid : List Char) : List (List Char) :=
  catMap (lineSegs pid) (splitlinesL body)

/-- Does a word boundary close the final `[A-Z0-9\-]+` repetition after
some non-empty amount of it?  `brun` is the greedy run, `rest` what
follows it. -/
def exB : List Char → List Char → Bool
  | [], _ => false
  | c :: t, rest =>
    (isWordC c != wordOpt (match t with | [] => rest.head? | d :: _ => some d))
    || exB t rest

/-- Position matcher for `\b[A-Z0-9]{4,}/[A-Z0-9\-]+\b` with `IGNORECASE`
(the reference-code stop pattern of `attach_following`). -/
def tryRefCode (prev : Option Char) (s : List Char) : Option Unit :=
  if wordOpt prev then none else
  let (a, r1) := spanP Char.isAlphanum s
  if a.length < 4 then none else
  match r1 with
  | '/' :: r2 =>
    let (b, r3) := spanP (fun c => c.isAlphanum || c == '-') r2
    if exB b r3 then some () else none
  | _ => none

def refCodeLike (f : List Char) : Bool := (scanS tryRefCode none f).isSome

/-- A following line that stops the forward scan: reference-code-like and
not containing the identifier. -/
def refStop (pid f : List Char) : Bool := refCodeLike f && !containsWholeWord pid f

/-- The line on its own resolves a price or a year
(`parse_price(line) > 0 or parse_year(line)`). -/
def selfRes (l : List Char) : Bool :=
  decide (0 < parse_price l) || !(parse_year l).isEmpty

/-- A scanned line worth attaching
(`parse_year(follow_line) or parse_price(follow_line) > 0`). -/
def yields (f : List Char) : Bool :=
  !(parse_year f).isEmpty || decide (0 < parse_price f)

/-- `f"{line} // {follow_line}"`. -/
def combineDS (line f : List Char) : List Char := line ++ sL " // " ++ f

/-- Inner scan of `attach_following`: up to `n` following lines, stopping
at a reference-code line without the identifier, emitting a combined
entry for each line that yields a year or a price. -/
def afScan (pid line : List Char) : List (List Char) → ℕ → List (List Char)
  | _, 0 => []
  | [], _ => []
  | f :: rest, n + 1 =>
    if refStop pid f then []
    else (if yields f then [combineDS line f] else []) ++ afScan pid line rest n

/-- Outer loop of `attach_following` over the non-empty stripped lines. -/
def afGo (pid : List Char) : List (List Char) → List (List Char)
  | [] => []
  | line :: rest =>
    (if containsWholeWord pid line && !selfRes line then afScan pid line rest 5 else [])
      ++ afGo pid rest

/-- The non-empty stripped body lines
(`[l.strip() for l in body.splitlines() if l.strip()]`). -/
def neLines (body : List Char) : List (List Char) :=
  ((splitlinesL body).map stripL).filter (fun l => !l.isEmpty)

/-- `attach_following`: forward-looking attachment strategy. -/
def attach_following (body pid : List Char) : List (List Char) :=
  afGo pid (neLines body)

/-- Order-preserving first-occurrence deduplication of
`extract_message_entries`. -/
def dedupGo (seen : List (List Char)) : List (List Char) → List (List Char)
  | [] => []
  | e :: t => if seen.contains e then dedupGo seen t else e :: dedupGo (e :: seen) t

/-- `extract_message_entries`: union of the two strategies, deduplicated
by exact text, first occurrence kept. -/
def extract_message_entries (body pid : List Char) : List (List Char) :=
  dedupGo [] (split_segments body pid ++ attach_following body pid)

/-- One chat message: the four capture groups of `HEADER_RE`, with the
body extended by continuation lines. -/
structure Msg where
  date : List Char
  time : List Char
  sender : List Char
  body : List Char
deriving DecidableEq, Repr

def isDateChar (c : Char) : Bool := c.isDigit || c == '/'

def isAmpm (c : Char) : Bool :=
  c == 'A' || c == 'P' || c == 'M' || c == 'a' || c == 'p' || c == 'm'

/-- The optional seconds group `(?::\d{2})?`: consumed when a colon and
two digits follow (a failed attempt backtracks to consuming nothing). -/
def optSecs (r3 : List Char) : List Char × List Char :=
  match r3 with
  | ':' :: s1 :: s2 :: r5 =>
    if s1.isDigit && s2.isDigit then ([':', s1, s2], r5) else ([], r3)
  | _ => ([], r3)

/-- Match `\d{1,2}:\d{2}(?::\d{2})?\s*[APMapm]{2}` at the start of `s`,
returning the matched text (capture group 2 of `HEADER_RE`) and the rest. -/
def timeParse (s : List Char) : Option (List Char × List Char) :=
  let (d, r1) := spanP Char.isDigit s
  if d.length = 1 ∨ d.length = 2 then
    match r1 with
    | ':' :: m1 :: m2 :: r3 =>
      if m1.isDigit && m2.isDigit then
        let (sp, r6) := spanP isPySpace (optSecs r3).2
        match r6 with
        | c1 :: c2 :: r7 =>
          if isAmpm c1 && isAmpm c2 then
            some (d ++ ':' :: m1 :: m2 :: ((optSecs r3).1 ++ sp ++ [c1, c2]), r7)
          else none
        | _ => none
      else none
    | _ => none
  else none

/-- Match `\s*([^:]+?):\s*(.*)$` against the text after the closing `]`:
the sender is everything up to the first colon with the leading
whitespace given back to `\s*` (a lazy group still needs one character,
so an all-whitespace region leaves a single space as sender), the body
start is the rest after that colon with leading whitespace stripped. -/
def senderBody (s : List Char) : Option (List Char × List Char) :=
  let r := s.takeWhile (fun c => c != ':')
  if r.length = s.length then none
  else if r.isEmpty then none
  else some (r.drop (min (r.takeWhile isPySpace).length (r.length - 1)),
             (s.drop (r.length + 1)).dropWhile isPySpace)

/-- `HEADER_RE.match(line)`: bracketed `[date, time]` prefix, sender up to
the first following colon, rest of the line as body start. -/
def headerMatch (line : List Char) : Option Msg :=
  match line with
  | '[' :: r1 =>
    let (d, r2) := spanP isDateChar r1
    if d.isEmpty then none else
    match r2 with
    | ',' :: r3 =>
      match timeParse ((spanP isPySpace r3).2) with
      | some (t, r5) =>
        match r5 with
        | ']' :: r6 =>
          match senderBody r6 with
          | some p => some ⟨d, t, p.1, p.2⟩
          | none => none
        | _ => none
      | none => none
    | _ => none
  | _ => none

/-- The accumulator loop of `process_chat_file`: a header line finalizes
the open message and opens a new one; any other line is appended to the
open message's body after a newline, or discarded when no message is
open; the last open message is finalized at end of input. -/
def tokenizeLines : List (List Char) → Option Msg → List Msg
  | [], none => []
  | [], some m => [m]
  | l :: t, curr =>
    match headerMatch l with
    | some m0 =>
      match curr with
      | some m => m :: tokenizeLines t (some m0)
      | none => tokenizeLines t (some m0)
    | none =>
      match curr with
      | some m => tokenizeLines t (some { m with body := m.body ++ '\n' :: l })
      | none => tokenizeLines t none

/-- Tokenize a whole transcript text. -/
def tokenize (content : List Char) : List Msg :=
  tokenizeLines (splitlinesL content) none

/-- One output row. -/
structure Record where
  chat : List Char
  date : List Char
  time : List Char
  sender : List Char
  pid : List Char
  year : List Char
  variant : List Char
  cond : List Char
  price : ℕ
  currency : List Char
  raw : List Char
  remark : List Char
deriving DecidableEq, Repr

/-- `re.search(r'PHOTO|omitted|attached:', raw, re.IGNORECASE)`:
case-insensitive substring test for the three noise markers. -/
def isNoise (raw : List Char) : Bool :=
  containsL (sL "photo") (toLowerL raw) || containsL (sL "omitted") (toLowerL raw)
    || containsL (sL "attached:") (toLowerL raw)

/-- The row dictionary built for one surviving entry. -/
def mkRow (chat pid : List Char) (m : Msg) (raw : List Char) : Record :=
  { chat := chat, date := m.date, time := m.time, sender := m.sender,
    pid := toUpperL pid, year := parse_year raw, variant := parse_variant raw,
    cond := parse_condition raw, price := parse_price raw,
    currency := parse_currency raw, raw := raw, remark := [] }

/-- Rows contributed by one message: skipped entirely unless the body
contains the identifier case-insensitively; noise entries are discarded. -/
def messageRows (chat pid : List Char) (m : Msg) : List Record :=
  if containsL (toLowerL pid) (toLowerL m.body) then
    ((extract_message_entries m.body pid).filter (fun r => !isNoise r)).map
      (mkRow chat pid m)
  else []

def catMapRows (f : Msg → List Record) : List Msg → List Record
  | [] => []
  | m :: t => f m ++ catMapRows f t

/-- `process_chat_file`: reading the transcript is modelled by an
`Except` value (`.error` when the file cannot be read, as caught by the
`try/except` around the whole body), the logger by the returned list of
log lines.  A failed read contributes an error log line and no rows. -/
def process_chat_file (chat : List Char) (readRes : Except (List Char) (List Char))
    (pid : List Char) : List (List Char) × List Record :=
  match readRes with
  | .error e => ([sL "Error processing " ++ chat ++ sL ": " ++ e], [])
  | .ok content =>
    ([sL "Processing " ++ chat],
     catMapRows (messageRows chat pid) (tokenize content))

/-- First defined value in an ordered list of attempts. -/
def firstSome {α : Type} : List (Option α) → Option α
  | [] => none
  | some v :: _ => some v
  | none :: t => firstSome t

/-- The eight price rules of `parse_price`, in source order. -/
def priceRules (n : List Char) : List (Option ℕ) :=
  [priceRule1 n, priceRule2 n, priceRule3 n, priceRule4 n,
   priceRule5 n, priceRule6 n, priceRule7 n, priceRule8 n]

/-- The four year rules of `parse_year`, in source order. -/
def yearRules (t : List Char) : List (Option (List Char)) :=
  [yearRule1 t, yearRule2 t, yearRule3 t, yearRule4 t]

/-- Claim-side formulation of the forward scan: at most the 5 following
non-empty lines, cut off at the first reference-code-like line not
containing the identifier. -/
def specScan (pid : List Char) (rest : List (List Char)) : List (List Char) :=
  (rest.take 5).takeWhile (fun f => !refStop pid f)

/-- Claim-side formulation of the forward-attachment strategy, written
from the claim's wording. -/
def afSpecGo (pid : List Char) : List (List Char) → List (List Char)
  | [] => []
  | line :: rest =>
    (if containsWholeWord pid line && !selfRes line
     then ((specScan pid rest).filter yields).map (fun f => combineDS line f)
     else [])
    ++ afSpecGo pid rest

def attachFollowingSpec (body pid : List Char) : List (List Char) :=
  afSpecGo pid (neLines body)

/-- Newline-joined continuation suffix appended to a message body. -/
def contJoin : List (List Char) → List Char
  | [] => []
  | l :: t => '\n' :: l ++ contJoin t

/-- The message opened at a header line, after appending its
continuation lines. -/
def finishMsg (m : Msg) (conts : List (List Char)) : Msg :=
  { m with body := m.body ++ contJoin conts }

/-- Physical lines of a block structure: each block is a header line
followed by its continuation lines. -/
def blockLines : List (List Char × List (List Char)) → List (List Char)
  | [] => []
  | (h, cs) :: rest => h :: (cs ++ blockLines rest)

/-- The message a block should tokenize to. -/
def blockMsg (b : List Char × List (List Char)) : Option Msg :=
  (headerMatch b.1).map (fun m => finishMsg m b.2)

/-- Characters that can occur in the matched time group. -/
def timeChar (c : Char) : Bool :=
  c.isDigit || c == ':' || isPySpace c || isAmpm c

/-- The trailing AM/PM part of a time: optional whitespace then exactly
two meridiem-marker letters, ending the time text. -/
def ampmEnd (r : List Char) : Bool :=
  match (spanP isPySpace r).2 with
  | [c1, c2] => isAmpm c1 && isAmpm c2
  | _ => false

/-- Claim-side shape of a header time: `H:MM[:SS] AM/PM` — one or two
hour digits, a colon, two minute digits, optional colon and two second
digits, optional whitespace, and a two-letter meridiem marker. -/
def isTimeShape (t : List Char) : Bool :=
  let (d, r1) := spanP Char.isDigit t
  if d.length = 1 ∨ d.length = 2 then
    match r1 with
    | ':' :: m1 :: m2 :: r3 =>
      if m1.isDigit && m2.isDigit then
        match r3 with
        | ':' :: s1 :: s2 :: r4 =>
          if s1.isDigit && s2.isDigit then ampmEnd r4 else ampmEnd r3
        | _ => ampmEnd r3
      else false
    | _ => false
  else false

/-- Claim-side: the text after the closing bracket of the timestamp
(after the first `]` of the line). -/
def afterBracket (line : List Char) : List Char :=
  (line.dropWhile (fun c => c != ']')).drop 1

/-- Claim-side: the text strictly between the bracketed timestamp and
the first subsequent colon. -/
def senderRegion (line : List Char) : List Char :=
  (afterBracket line).takeWhile (fun c => c != ':')

/-- Claim-side (amended): the sender — the region between bracket and
first colon with leading whitespace removed, except that an
all-whitespace region keeps its last character. -/
def senderFromLine (line : List Char) : List Char :=
  (senderRegion line).drop
    (min ((senderRegion line).takeWhile isPySpace).length ((senderRegion line).length - 1))

/-- Claim-side (amended): the body start — the rest of the line after
the delimiting colon, with leading whitespace removed. -/
def bodyFromLine (line : List Char) : List Char :=
  ((afterBracket line).drop ((senderRegion line).length + 1)).dropWhile isPySpace

/-! ## Lemmas and claim theorems -/

theorem parse_price_eq_chain (t : List Char) :
    parse_price t = (firstSome (priceRules (normPrice t))).getD 0 := by
  unfold parse_price priceRules
  cases h1 : priceRule1 (normPrice t) with
  | some v => simp [firstSome]
  | none =>
  cases h2 : priceRule2 (normPrice t) with
  | some v => simp [firstSome]
  | none =>
  cases h3 : priceRule3 (normPrice t) with
  | some v => simp [firstSome]
  | none =>
  cases h4 : priceRule4 (normPrice t) with
  | some v => simp [firstSome]
  | none =>
  cases h5 : priceRule5 (normPrice t) with
  | some v => simp [firstSome]
  | none =>
  cases h6 : priceRule6 (normPrice t) with
  | some v => simp [firstSome]
  | none =>
  cases h7 : priceRule7 (normPrice t) with
  | some v => simp [firstSome]
  | none =>
  cases h8 : priceRule8 (normPrice t) with
  | some v => simp [firstSome]
  | none => simp [firstSome]

theorem parse_year_eq_chain (t : List Char) :
    parse_year t = (firstSome (yearRules t)).getD [] := by
  unfold parse_year yearRules
  cases h1 : yearRule1 t with
  | some v => simp [firstSome]
  | none =>
  cases h2 : yearRule2 t with
  | some v => simp [firstSome]
  | none =>
  cases h3 : yearRule3 t with
  | some v => simp [firstSome]
  | none =>
  cases h4 : yearRule4 t with
  | some v => simp [firstSome]
  | none => simp [firstSome]

/-- C1 counterexample: on "1.013k" the program computes
`int(float('1.013') * 1000)` in IEEE binary64 arithmetic and returns
1012, while the exact truncated product value×1000 the claim describes
is 1013 — the decimal rules do not return the exactly-truncated
multiple of the literal's value. -/
theorem c1_counterexample :
    parse_price (sL "1.013k") = 1012
    ∧ (digitsToNat (sL "1") * 10 ^ 3 + digitsToNat (sL "013")) * 1000 / 10 ^ 3
        = 1013 := by decide

/-- C1 amended: the price extractor tries its eight rules in the fixed
source order — decimal-k, decimal-m, integer-k (word-boundary k),
integer-m, decimal-mill, currency code with separator then ≥5 digits,
currency code directly followed by ≥5 digits, bare run of ≥6 digits —
the first matching rule determines the result and 0 is returned when no
rule matches, after comma removal and lower-casing; the integer rules
multiply exactly, while the decimal rules compute
`int(float(g) * mult)` in IEEE binary64 double arithmetic, which can
differ from the exactly-truncated product ("1.013k" yields 1012); the
six sample texts evaluate as stated. -/
theorem c1_price_rules_amended :
    (∀ t, parse_price t = (firstSome (priceRules (normPrice t))).getD 0)
    ∧ (∀ t, firstSome (priceRules (normPrice t)) = none → parse_price t = 0)
    ∧ parse_price (sL "1.5k") = 1500
    ∧ parse_price (sL "1.5m") = 1500000
    ∧ parse_price (sL "250k") = 250000
    ∧ parse_price (sL "USD: 123456") = 123456
    ∧ parse_price (sL "999999") = 999999
    ∧ parse_price (sL "abc") = 0
    ∧ parse_price (sL "1.013k") = 1012 := by
  refine ⟨parse_price_eq_chain, ?_, by decide, by decide, by decide, by decide,
    by decide, by decide, by decide⟩
  intro t h
  rw [parse_price_eq_chain t, h]
  rfl

/-- C1 witness: the no-rule-matches hypothesis holds for "abc" and the
result there is 0. -/
theorem c1_price_rules_amended_witness : parse_price (sL "abc") = 0 :=
  c1_price_rules_amended.2.1 (sL "abc") (by decide)

/-- C4: the year extractor tries its four rules in the fixed source
order — bare 4-digit token starting with 20, `20YY/NN`, 1–2 digits
followed by y/Y mapped to 20xx (value < 50) or 19xx (value ≥ 50), and
`20YY` followed by year/yr — first match wins, the empty string is
returned when none match, and the sample texts evaluate as stated. -/
theorem c4_year_rule_order :
    (∀ t, parse_year t = (firstSome (yearRules t)).getD [])
    ∧ (∀ t, firstSome (yearRules t) = none → parse_year t = [])
    ∧ parse_year (sL "45y") = sL "2045"
    ∧ parse_year (sL "85y") = sL "1985"
    ∧ parse_year (sL "2019/01") = sL "2019"
    ∧ parse_year (sL "abc") = sL "" := by
  refine ⟨parse_year_eq_chain, ?_, by decide, by decide, by decide, by decide⟩
  intro t h
  rw [parse_year_eq_chain t, h]
  rfl

/-- C4 witness: the no-rule-matches hypothesis holds for "abc" and the
result there is the empty string. -/
theorem c4_year_rule_order_witness : parse_year (sL "abc") = [] :=
  c4_year_rule_order.2.1 (sL "abc") (by decide)

/-- C6: the condition extractor scans the lower-cased text for the fixed
substrings in priority order — like new, used, full set/fullset, mint,
new, only watch — returns the label of the first match and the empty
string when none match; "like new full set" yields "Like New". -/
theorem c6_condition_priority :
    (∀ t, containsL (sL "like new") (toLowerL t) = true →
      parse_condition t = sL "Like New")
    ∧ (∀ t, containsL (sL "like new") (toLowerL t) = false →
        containsL (sL "used") (toLowerL t) = true → parse_condition t = sL "Used")
    ∧ (∀ t, containsL (sL "like new") (toLowerL t) = false →
        containsL (sL "used") (toLowerL t) = false →
        (containsL (sL "full set") (toLowerL t) = true ∨
          containsL (sL "fullset") (toLowerL t) = true) →
        parse_condition t = sL "Full Set")
    ∧ (∀ t, containsL (sL "like new") (toLowerL t) = false →
        containsL (sL "used") (toLowerL t) = false →
        containsL (sL "full set") (toLowerL t) = false →
        containsL (sL "fullset") (toLowerL t) = false →
        containsL (sL "mint") (toLowerL t) = true → parse_condition t = sL "Mint")
    ∧ (∀ t, containsL (sL "like new") (toLowerL t) = false →
        containsL (sL "used") (toLowerL t) = false →
        containsL (sL "full set") (toLowerL t) = false →
        containsL (sL "fullset") (toLowerL t) = false →
        containsL (sL "mint") (toLowerL t) = false →
        containsL (sL "new") (toLowerL t) = true → parse_condition t = sL "New")
    ∧ (∀ t, containsL (sL "like new") (toLowerL t) = false →
        containsL (sL "used") (toLowerL t) = false →
        containsL (sL "full set") (toLowerL t) = false →
        containsL (sL "fullset") (toLowerL t) = false →
        containsL (sL "mint") (toLowerL t) = false →
        containsL (sL "new") (toLowerL t) = false →
        containsL (sL "only watch") (toLowerL t) = true →
        parse_condition t = sL "Only Watch")
    ∧ (∀ t, containsL (sL "like new") (toLowerL t) = false →
        containsL (sL "used") (toLowerL t) = false →
        containsL (sL "full set") (toLowerL t) = false →
        containsL (sL "fullset") (toLowerL t) = false →
        containsL (sL "mint") (toLowerL t) = false →
        containsL (sL "new") (toLowerL t) = false →
        containsL (sL "only watch") (toLowerL t) = false →
        parse_condition t = sL "")
    ∧ parse_condition (sL "like new full set") = sL "Like New" := by
  refine ⟨?_, ?_, ?_, ?_, ?_, ?_, ?_, by decide⟩
  · intro t h1; simp [parse_condition, h1]
  · intro t h1 h2; simp [parse_condition, h1, h2]
  · intro t h1 h2 h3
    rcases h3 with h3 | h3 <;> simp [parse_condition, h1, h2, h3]
  · intro t h1 h2 h3 h4 h5; simp [parse_condition, h1, h2, h3, h4, h5]
  · intro t h1 h2 h3 h4 h5 h6; simp [parse_condition, h1, h2, h3, h4, h5, h6]
  · intro t h1 h2 h3 h4 h5 h6 h7; simp [parse_condition, h1, h2, h3, h4, h5, h6, h7]
  · intro t h1 h2 h3 h4 h5 h6 h7; simp [parse_condition, h1, h2, h3, h4, h5, h6, h7]

/-- C6 witness: the first-priority hypothesis holds for
"like new full set" and the label there is "Like New". -/
theorem c6_condition_priority_witness :
    parse_condition (sL "like new full set") = sL "Like New" :=
  c6_condition_priority.1 (sL "like new full set") (by decide)

/-- C8 counterexample: on "0k" the integer-k rule (rule 3) matches, yet
the extractor returns 0 — so price 0 is not returned exactly when no
rule matches, and a matched rule can itself yield the value 0. -/
theorem c8_counterexample :
    (firstSome (priceRules (normPrice (sL "0k")))).isSome = true
    ∧ parse_price (sL "0k") = 0 := by decide

/-- C8 amended: the price extractor returns 0 iff no rule matches or the
first matching rule itself produces the numeric value 0 (as for "0k");
0 is still always returned when no rule matches. -/
theorem c8_zero_sentinel_amended :
    ∀ t, parse_price t = 0 ↔
      (firstSome (priceRules (normPrice t)) = none ∨
        firstSome (priceRules (normPrice t)) = some 0) := by
  intro t
  rw [parse_price_eq_chain t]
  cases h : firstSome (priceRules (normPrice t)) <;> simp

/-- C8 witness: instantiating the amended equivalence at "0k", whose
first matching rule produces 0. -/
theorem c8_zero_sentinel_amended_witness : parse_price (sL "0k") = 0 :=
  (c8_zero_sentinel_amended (sL "0k")).mpr (Or.inr (by decide))

theorem afScan_eq_spec (pid line : List Char) (rest : List (List Char)) :
    ∀ n, afScan pid line rest n
      = (((rest.take n).takeWhile (fun f => !refStop pid f)).filter yields).map
          (fun f => combineDS line f) := by
  induction rest with
  | nil => intro n; cases n <;> simp [afScan]
  | cons f t ih =>
    intro n
    cases n with
    | zero => simp [afScan]
    | succ k =>
      cases hs : refStop pid f with
      | true => simp [afScan, hs]
      | false =>
        cases hy : yields f with
        | true => simp [afScan, hs, hy, ih k]
        | false => simp [afScan, hs, hy, ih k]

theorem afGo_eq_spec (pid : List Char) :
    ∀ lines, afGo pid lines = afSpecGo pid lines := by
  intro lines
  induction lines with
  | nil => rfl
  | cons line rest ih =>
    simp only [afGo, afSpecGo, afScan_eq_spec, specScan, ih]

/-- C2: the forward-attachment strategy behaves as described — each
non-empty stripped line containing the identifier as a whole word is
skipped when it alone yields a price or year, otherwise at most the 5
following non-empty lines are scanned, the scan stopping at a
reference-code-shaped line not containing the identifier, and each
scanned line yielding a year or price produces the combined entry
"line // follow"; in the three-line sample, line 1 is never combined
with line 3 because line 2 stops the scan. -/
theorem c2_forward_attachment :
    (∀ body pid, attach_following body pid = attachFollowingSpec body pid)
    ∧ attach_following
        (sL "Line A ABCD1 interested\nWXYZ/XYZ other item\n2023 49000")
        (sL "ABCD1") = []
    ∧ combineDS (sL "Line A ABCD1 interested") (sL "2023 49000")
        ∉ attach_following
            (sL "Line A ABCD1 interested\nWXYZ/XYZ other item\n2023 49000")
            (sL "ABCD1") := by
  refine ⟨?_, by decide, by decide⟩
  intro body pid
  unfold attach_following attachFollowingSpec
  exact afGo_eq_spec pid (neLines body)

/-- C7: an entry whose text matches the case-insensitive noise markers
PHOTO / omitted / attached: never produces a record — every record
emitted by the assembly stage has a non-noisy raw line, and the sample
message whose only entry contains "photo omitted" produces no record. -/
theorem c7_noise_filter :
    (∀ chat pid m r, r ∈ messageRows chat pid m → isNoise r.raw = false)
    ∧ messageRows (sL "chat") (sL "abcd1")
        ⟨sL "1/2/24", sL "3:45 PM", sL "Bob", sL "ABCD1 photo omitted"⟩ = [] := by
  refine ⟨?_, by decide⟩
  intro chat pid m r hr
  unfold messageRows at hr
  split at hr
  · rcases List.mem_map.mp hr with ⟨raw, hraw, rfl⟩
    have hn := (List.mem_filter.mp hraw).2
    simpa [mkRow] using hn
  · simp at hr

/-- C7 witness: a concrete produced record, whose raw line the theorem
shows to be noise-free. -/
theorem c7_noise_filter_witness :
    isNoise (mkRow (sL "chat") (sL "abcd1")
      ⟨sL "1/2/24", sL "3:45 PM", sL "Bob", sL "ABCD1 999999"⟩
      (sL "ABCD1 999999")).raw = false :=
  c7_noise_filter.1 (sL "chat") (sL "abcd1")
    ⟨sL "1/2/24", sL "3:45 PM", sL "Bob", sL "ABCD1 999999"⟩ _ (by decide)

theorem prefEq_append (n : List Char) :
    ∀ s x, prefEq n s = true → prefEq n (s ++ x) = true := by
  induction n with
  | nil => intro s x _; rfl
  | cons a as ih =>
    intro s x h
    cases s with
    | nil => simp [prefEq] at h
    | cons b bs =>
      simp only [prefEq, Bool.and_eq_true] at h ⊢
      exact ⟨h.1, ih bs x h.2⟩

theorem containsL_nil (s : List Char) : containsL [] s = true := by
  cases s <;> simp [containsL, prefEq]

theorem containsL_append_right (n : List Char) :
    ∀ a x, containsL n a = true → containsL n (a ++ x) = true := by
  intro a
  induction a with
  | nil =>
    intro x h
    have : n = [] := by cases n with
      | nil => rfl
      | cons c t => simp [containsL, prefEq] at h
    subst this
    simpa using containsL_nil x
  | cons c t ih =>
    intro x h
    simp only [containsL, Bool.or_eq_true] at h ⊢
    rcases h with h | h
    · exact Or.inl (prefEq_append n (c :: t) x h)
    · exact Or.inr (ih x h)

theorem ciPrefEq_eq_prefEq (a : List Char) :
    ∀ b, ciPrefEq a b = prefEq (toLowerL a) (toLowerL b) := by
  induction a with
  | nil => intro b; cases b <;> simp [ciPrefEq, prefEq, toLowerL]
  | cons c t ih =>
    intro b
    cases b with
    | nil => simp [ciPrefEq, prefEq, toLowerL]
    | cons d u => simp [ciPrefEq, prefEq, toLowerL, ih u]

theorem hasWW_substring (pid : List Char) :
    ∀ s prev, hasWW pid prev s = true →
      containsL (toLowerL pid) (toLowerL s) = true := by
  intro s
  induction s with
  | nil =>
    intro prev h
    simp only [hasWW, wholeWordAt, Bool.and_eq_true] at h
    have hp := h.1.1
    cases pid with
    | nil => simpa using containsL_nil (toLowerL [])
    | cons c t => simp [ciPrefEq] at hp
  | cons c t ih =>
    intro prev h
    simp only [hasWW, Bool.or_eq_true] at h
    rcases h with h | h
    · simp only [wholeWordAt, Bool.and_eq_true] at h
      have hp : prefEq (toLowerL pid) (toLowerL (c :: t)) = true := by
        rw [← ciPrefEq_eq_prefEq]; exact h.1.1
      cases hlow : toLowerL (c :: t) with
      | nil => simp [toLowerL] at hlow
      | cons d u =>
        rw [hlow] at hp
        simp only [containsL, hlow, Bool.or_eq_true]
        exact Or.inl hp
    · have := ih (some c) h
      simp only [toLowerL, List.map_cons, containsL, Bool.or_eq_true]
      exact Or.inr this

theorem containsWholeWord_substring (pid s : List Char)
    (h : containsWholeWord pid s = true) :
    containsL (toLowerL pid) (toLowerL s) = true :=
  hasWW_substring pid s none h

theorem mem_catMap {f : List Char → List (List Char)} :
    ∀ {l e}, e ∈ catMap f l → ∃ x ∈ l, e ∈ f x := by
  intro l
  induction l with
  | nil => intro e h; simp [catMap] at h
  | cons a t ih =>
    intro e h
    simp only [catMap, List.mem_append] at h
    rcases h with h | h
    · exact ⟨a, by simp, h⟩
    · rcases ih h with ⟨x, hx, he⟩
      exact ⟨x, by simp [hx], he⟩

theorem mem_dedupGo : ∀ (l : List (List Char)) seen e, e ∈ dedupGo seen l → e ∈ l := by
  intro l
  induction l with
  | nil => intro seen e h; simp [dedupGo] at h
  | cons a t ih =>
    intro seen e h
    simp only [dedupGo] at h
    split at h
    · exact List.mem_cons_of_mem a (ih seen e h)
    · rcases List.mem_cons.mp h with h | h
      · exact h ▸ List.mem_cons_self a t
      · exact List.mem_cons_of_mem a (ih (a :: seen) e h)

theorem mem_afScan {pid line : List Char} {rest : List (List Char)} {n : ℕ} {e : List Char}
    (h : e ∈ afScan pid line rest n) : ∃ f, e = combineDS line f := by
  rw [afScan_eq_spec] at h
  rcases List.mem_map.mp h with ⟨f, _, rfl⟩
  exact ⟨f, rfl⟩

theorem mem_afGo {pid : List Char} :
    ∀ {lines e}, e ∈ afGo pid lines →
      ∃ l f, containsWholeWord pid l = true ∧ e = combineDS l f := by
  intro lines
  induction lines with
  | nil => intro e h; simp [afGo] at h
  | cons line rest ih =>
    intro e h
    simp only [afGo, List.mem_append] at h
    rcases h with h | h
    · split at h
      · next hc =>
        rcases mem_afScan h with ⟨f, rfl⟩
        exact ⟨line, f, (Bool.and_eq_true .. ▸ hc).1, rfl⟩
      · simp at h
    · exact ih h

/-- C10: every entry produced by the segment extractor contains the
identifier as a case-insensitive whole word — either in the entry text
itself (intra-line segments) or in the leading line of a combined
"line // follow" entry — and hence the raw line of every emitted record
contains the identifier case-insensitively. -/
theorem c10_entries_carry_pid :
    (∀ body pid e, pid ≠ [] → e ∈ extract_message_entries body pid →
      (containsWholeWord pid e = true ∨
        ∃ l f, e = combineDS l f ∧ containsWholeWord pid l = true)
      ∧ containsL (toLowerL pid) (toLowerL e) = true)
    ∧ (∀ chat pid m r, pid ≠ [] → r ∈ messageRows chat pid m →
        containsL (toLowerL pid) (toLowerL r.raw) = true) := by
  have main : ∀ body pid e, e ∈ extract_message_entries body pid →
      (containsWholeWord pid e = true ∨
        ∃ l f, e = combineDS l f ∧ containsWholeWord pid l = true)
      ∧ containsL (toLowerL pid) (toLowerL e) = true := by
    intro body pid e he
    have hm : e ∈ split_segments body pid ++ attach_following body pid :=
      mem_dedupGo _ _ _ he
    rcases List.mem_append.mp hm with h | h
    · rcases mem_catMap h with ⟨line, _, hseg⟩
      have hww : containsWholeWord pid e = true := by
        have := List.mem_filter.mp hseg
        simpa using this.2
      exact ⟨Or.inl hww, containsWholeWord_substring pid e hww⟩
    · rcases mem_afGo h with ⟨l, f, hww, rfl⟩
      refine ⟨Or.inr ⟨l, f, rfl, hww⟩, ?_⟩
      have hl := containsWholeWord_substring pid l hww
      have : toLowerL (combineDS l f) = toLowerL l ++ toLowerL (sL " // " ++ f) := by
        simp [combineDS, toLowerL]
      rw [this]
      exact containsL_append_right _ _ _ hl
  refine ⟨fun body pid e _ he => main body pid e he, ?_⟩
  intro chat pid m r _ hr
  unfold messageRows at hr
  split at hr
  · rcases List.mem_map.mp hr with ⟨raw, hraw, rfl⟩
    have hmem := (List.mem_filter.mp hraw).1
    have := (main m.body pid raw hmem).2
    simpa [mkRow] using this
  · simp at hr

/-- C10 witness: a concrete body/identifier pair with an extracted entry
(identifier in lower case, text in upper case), giving the containment. -/
theorem c10_entries_carry_pid_witness :
    containsL (toLowerL (sL "abcd1")) (toLowerL (sL "ABCD1 999999")) = true :=
  (c10_entries_carry_pid.1 (sL "ABCD1 999999") (sL "abcd1") (sL "ABCD1 999999")
    (by decide) (by decide)).2

theorem tokenizeLines_discard (pre : List (List Char)) :
    ∀ rest, (∀ l ∈ pre, headerMatch l = none) →
      tokenizeLines (pre ++ rest) none = tokenizeLines rest none := by
  induction pre with
  | nil => intro rest _; rfl
  | cons l t ih =>
    intro rest h
    have hl : headerMatch l = none := h l (by simp)
    simp only [List.cons_append, tokenizeLines, hl]
    exact ih rest (fun x hx => h x (by simp [hx]))

theorem tokenizeLines_conts (conts : List (List Char)) :
    ∀ rest m, (∀ l ∈ conts, headerMatch l = none) →
      tokenizeLines (conts ++ rest) (some m)
        = tokenizeLines rest (some (finishMsg m conts)) := by
  induction conts with
  | nil =>
    intro rest m _
    have : finishMsg m [] = m := by simp [finishMsg, contJoin]
    rw [this, List.nil_append]
  | cons l cs ih =>
    intro rest m h
    have hl : headerMatch l = none := h l (by simp)
    simp only [List.cons_append, tokenizeLines, hl, List.append_eq]
    rw [ih rest _ (fun x hx => h x (by simp [hx]))]
    have : finishMsg { m with body := m.body ++ '\n' :: l } cs = finishMsg m (l :: cs) := by
      simp [finishMsg, contJoin, List.append_assoc]
    rw [this]

theorem tokenizeLines_blocks (blocks : List (List Char × List (List Char))) :
    ∀ m, (∀ b ∈ blocks, (headerMatch b.1).isSome = true ∧
        ∀ l ∈ b.2, headerMatch l = none) →
      tokenizeLines (blockLines blocks) (some m) = m :: blocks.filterMap blockMsg := by
  induction blocks with
  | nil => intro m _; rfl
  | cons b rest ih =>
    intro m h
    obtain ⟨hd, cs⟩ := b
    have h1 := h (hd, cs) (by simp)
    rcases Option.isSome_iff_exists.mp h1.1 with ⟨m0, hm0⟩
    simp only [blockLines, tokenizeLines, hm0]
    rw [tokenizeLines_conts cs _ m0 h1.2,
      ih _ (fun x hx => h x (by simp [hx]))]
    simp [blockMsg, hm0]

theorem filterMap_blockMsg_len (blocks : List (List Char × List (List Char)))
    (h : ∀ b ∈ blocks, (headerMatch b.1).isSome = true ∧
        ∀ l ∈ b.2, headerMatch l = none) :
    (blocks.filterMap blockMsg).length = blocks.length := by
  induction blocks with
  | nil => rfl
  | cons b rest ih =>
    have h1 := (h b (by simp)).1
    rcases Option.isSome_iff_exists.mp h1 with ⟨m0, hm0⟩
    simp [blockMsg, hm0, ih (fun x hx => h x (by simp [hx]))]

/-- C3: on a transcript made of discarded preamble lines followed by N
header blocks (a matching header line plus non-header continuation
lines each), the tokenizer yields exactly the N block messages in
order, each body being the header's trailing text followed by the
block's continuation lines joined with newlines. -/
theorem c3_tokenizer_blocks :
    ∀ (pre : List (List Char)) (blocks : List (List Char × List (List Char))),
      (∀ l ∈ pre, headerMatch l = none) →
      (∀ b ∈ blocks, (headerMatch b.1).isSome = true ∧
        ∀ l ∈ b.2, headerMatch l = none) →
      tokenizeLines (pre ++ blockLines blocks) none = blocks.filterMap blockMsg
      ∧ (tokenizeLines (pre ++ blockLines blocks) none).length = blocks.length := by
  intro pre blocks hpre hb
  have heq : tokenizeLines (pre ++ blockLines blocks) none = blocks.filterMap blockMsg := by
    rw [tokenizeLines_discard pre _ hpre]
    cases blocks with
    | nil => rfl
    | cons b rest =>
      obtain ⟨hd, cs⟩ := b
      have h1 := hb (hd, cs) (by simp)
      rcases Option.isSome_iff_exists.mp h1.1 with ⟨m0, hm0⟩
      simp only [blockLines, tokenizeLines, hm0]
      rw [tokenizeLines_conts cs _ m0 h1.2,
        tokenizeLines_blocks rest _ (fun x hx => hb x (by simp [hx]))]
      simp [blockMsg, hm0]
  exact ⟨heq, by rw [heq]; exact filterMap_blockMsg_len blocks hb⟩

/-- C3 witness: a concrete transcript with one discarded preamble line
and two blocks, the first with one continuation line. -/
theorem c3_tokenizer_blocks_witness :
    tokenizeLines
        ([sL "noise"] ++ blockLines
          [(sL "[1/2/24, 3:45 PM] Bob: hi", [sL "more"]),
           (sL "[1/3/24, 4:05 AM] Ann: yo", [])]) none
      = [(sL "[1/2/24, 3:45 PM] Bob: hi", [sL "more"]),
         (sL "[1/3/24, 4:05 AM] Ann: yo", ([] : List (List Char)))].filterMap blockMsg
    ∧ (tokenizeLines
        ([sL "noise"] ++ blockLines
          [(sL "[1/2/24, 3:45 PM] Bob: hi", [sL "more"]),
           (sL "[1/3/24, 4:05 AM] Ann: yo", [])]) none).length = 2 :=
  c3_tokenizer_blocks [sL "noise"]
    [(sL "[1/2/24, 3:45 PM] Bob: hi", [sL "more"]),
     (sL "[1/3/24, 4:05 AM] Ann: yo", [])] (by decide) (by decide)

theorem mem_takeWhileP {p : Char → Bool} :
    ∀ {l : List Char} {c}, c ∈ l.takeWhile p → p c = true :=
  fun h => List.mem_takeWhile_imp h

theorem takeWhile_middle {p : Char → Bool} (xs : List Char) (y : Char) (r : List Char)
    (hx : ∀ c ∈ xs, p c = true) (hy : p y = false) :
    (xs ++ y :: r).takeWhile p = xs ∧ (xs ++ y :: r).dropWhile p = y :: r := by
  induction xs with
  | nil => simp [List.takeWhile_cons, List.dropWhile_cons, hy]
  | cons a t ih =>
    have ha := hx a (by simp)
    have iht := ih (fun c hc => hx c (by simp [hc]))
    simp [List.takeWhile_cons, List.dropWhile_cons, ha, iht.1, iht.2]

theorem ampm_not_space (c : Char) (h : isAmpm c = true) : isPySpace c = false := by
  simp only [isAmpm, Bool.or_eq_true, beq_iff_eq] at h
  rcases h with ((((rfl | rfl) | rfl) | rfl) | rfl) | rfl <;> decide

theorem space_ne_colon (c : Char) (h : isPySpace c = true) : c ≠ ':' := by
  intro he; rw [he] at h; exact absurd h (by decide)

theorem isDateChar_ne_rb (c : Char) (h : isDateChar c = true) : c ≠ ']' := by
  intro he; rw [he] at h; exact absurd h (by decide)

theorem isPySpace_ne_rb (c : Char) (h : isPySpace c = true) : c ≠ ']' := by
  intro he; rw [he] at h; exact absurd h (by decide)

theorem timeChar_ne_rb (c : Char) (h : timeChar c = true) : c ≠ ']' := by
  intro he; rw [he] at h; exact absurd h (by decide)

theorem ampmEnd_spaces (sp : List Char) (c1 c2 : Char)
    (hsp : ∀ c ∈ sp, isPySpace c = true)
    (h1 : isAmpm c1 = true) (h2 : isAmpm c2 = true) :
    ampmEnd (sp ++ [c1, c2]) = true := by
  unfold ampmEnd
  simp only [spanP]
  rw [(takeWhile_middle sp c1 [c2] hsp (ampm_not_space c1 h1)).2]
  simp [h1, h2]

theorem isTimeShape_intro (d : List Char) (m1 m2 : Char) (secs sp : List Char)
    (c1 c2 : Char)
    (hd : ∀ c ∈ d, Char.isDigit c = true) (hlen : d.length = 1 ∨ d.length = 2)
    (hm1 : m1.isDigit = true) (hm2 : m2.isDigit = true)
    (hsecs : secs = [] ∨ ∃ s1 s2, s1.isDigit = true ∧ s2.isDigit = true ∧
      secs = [':', s1, s2])
    (hsp : ∀ c ∈ sp, isPySpace c = true)
    (h1 : isAmpm c1 = true) (h2 : isAmpm c2 = true) :
    isTimeShape (d ++ ':' :: m1 :: m2 :: (secs ++ sp ++ [c1, c2])) = true := by
  unfold isTimeShape
  simp only [spanP]
  have hmid := takeWhile_middle d ':' (m1 :: m2 :: (secs ++ sp ++ [c1, c2])) hd (by decide)
  rw [hmid.1, hmid.2, if_pos hlen]
  simp only [hm1, hm2, Bool.and_self, if_pos]
  rcases hsecs with rfl | ⟨s1, s2, hs1, hs2, rfl⟩
  · simp only [List.nil_append]
    cases sp with
    | nil => simpa using ampmEnd_spaces [] c1 c2 (by simp) h1 h2
    | cons x xs =>
      have hx : x ≠ ':' := space_ne_colon x (hsp x (by simp))
      have hxs : (x :: xs) ++ [c1, c2] = x :: (xs ++ [c1, c2]) := rfl
      rw [List.cons_append]
      split
      · next s1 s2 r4 heq =>
        injection heq with he1 _
        exact absurd he1 hx
      · exact ampmEnd_spaces (x :: xs) c1 c2 hsp h1 h2
  · simp only [List.cons_append, List.append_assoc]
    simp only [hs1, hs2, Bool.and_self, if_pos]
    exact ampmEnd_spaces sp c1 c2 hsp h1 h2

theorem optSecs_spec (r3 : List Char) :
    (optSecs r3).1 ++ (optSecs r3).2 = r3
    ∧ ((optSecs r3).1 = [] ∨ ∃ s1 s2, s1.isDigit = true ∧ s2.isDigit = true ∧
        (optSecs r3).1 = [':', s1, s2])
    ∧ ∀ c ∈ (optSecs r3).1, timeChar c = true := by
  unfold optSecs
  split
  · next s1 s2 r5 =>
    split
    · next hdig =>
      simp only [Bool.and_eq_true] at hdig
      refine ⟨rfl, Or.inr ⟨s1, s2, hdig.1, hdig.2, rfl⟩, ?_⟩
      intro c hc
      simp only [List.mem_cons, List.not_mem_nil, or_false] at hc
      rcases hc with rfl | rfl | rfl
      · decide
      · simp [timeChar, hdig.1]
      · simp [timeChar, hdig.2]
    · simp
  · simp

theorem timeParse_eq (s t r : List Char) (h : timeParse s = some (t, r)) :
    s = t ++ r ∧ isTimeShape t = true ∧ ∀ c ∈ t, timeChar c = true := by
  unfold timeParse at h
  simp only [spanP] at h
  split at h
  case isFalse => simp at h
  case isTrue hlen =>
    split at h
    case h_2 => simp at h
    case h_1 m1 m2 r3 heq1 =>
      split at h
      case isFalse => simp at h
      case isTrue hm =>
        split at h
        case h_2 => simp at h
        case h_1 c1 c2 r7 heq3 =>
          split at h
          case isFalse => simp at h
          case isTrue hc =>
            rw [Option.some.injEq, Prod.mk.injEq] at h
            obtain ⟨ht, hr⟩ := h
            subst ht
            subst hr
            simp only [Bool.and_eq_true] at hm hc
            refine ⟨?_, ?_, ?_⟩
            · conv_lhs => rw [← List.takeWhile_append_dropWhile Char.isDigit s, heq1]
              conv_lhs => rw [← (optSecs_spec r3).1]
              conv_lhs =>
                rw [← List.takeWhile_append_dropWhile isPySpace (optSecs r3).2, heq3]
              simp [List.append_assoc]
            · exact isTimeShape_intro _ m1 m2 _ _ c1 c2
                (fun c hc => mem_takeWhileP hc) hlen hm.1 hm.2
                (optSecs_spec r3).2.1 (fun c hc => mem_takeWhileP hc) hc.1 hc.2
            · intro c hmem
              simp only [List.mem_append, List.mem_cons, List.not_mem_nil,
                or_false] at hmem
              rcases hmem with hD | rfl | rfl | rfl | (hS | hSP) | rfl | rfl
              · simp [timeChar, mem_takeWhileP hD]
              · decide
              · simp [timeChar, hm.1]
              · simp [timeChar, hm.2]
              · exact (optSecs_spec r3).2.2 c hS
              · simp [timeChar, mem_takeWhileP hSP]
              · simp [timeChar, hc.1]
              · simp [timeChar, hc.2]

theorem headerMatch_eq (line : List Char) (m : Msg) (h : headerMatch line = some m) :
    ∃ d sp t r6,
      line = '[' :: (d ++ ',' :: (sp ++ (t ++ ']' :: r6)))
      ∧ (∀ c ∈ d, isDateChar c = true)
      ∧ (∀ c ∈ sp, isPySpace c = true)
      ∧ m.time = t ∧ isTimeShape t = true ∧ (∀ c ∈ t, timeChar c = true)
      ∧ senderBody r6 = some (m.sender, m.body) := by
  unfold headerMatch at h
  split at h
  case h_2 => simp at h
  case h_1 r1 =>
    simp only [spanP] at h
    split at h
    case isTrue => simp at h
    case isFalse hne =>
      split at h
      case h_2 => simp at h
      case h_1 r3 heqd =>
        split at h
        case h_2 => simp at h
        case h_1 t r6 heqt =>
          split at h
          case h_2 => simp at h
          case h_1 r6x heqr6 =>
            split at h
            case h_2 => simp at h
            case h_1 p heqsb =>
              rw [Option.some.injEq] at h
              subst h
              obtain ⟨hsplit, hshape, hchars⟩ := timeParse_eq _ _ _ heqt
              obtain ⟨p1, p2⟩ := p
              refine ⟨List.takeWhile isDateChar r1, List.takeWhile isPySpace r3, t,
                heqr6, ?_, fun c hc => mem_takeWhileP hc, fun c hc => mem_takeWhileP hc,
                rfl, hshape, hchars, ?_⟩
              · have hr3 : r3 = List.takeWhile isPySpace r3 ++ (t ++ ']' :: heqr6) := by
                  conv_lhs => rw [← List.takeWhile_append_dropWhile isPySpace r3]
                  rw [hsplit]
                have hr1 : r1 = List.takeWhile isDateChar r1
                    ++ ',' :: (List.takeWhile isPySpace r3 ++ (t ++ ']' :: heqr6)) := by
                  conv_lhs => rw [← List.takeWhile_append_dropWhile isDateChar r1, heqd]
                  conv_lhs => rw [hr3]
                rw [← hr1]
              · exact heqsb

theorem dropWhile_to_rb (xs ys : List Char) (hx : ∀ c ∈ xs, c ≠ ']') :
    (xs ++ ']' :: ys).dropWhile (fun c => c != ']') = ']' :: ys := by
  induction xs with
  | nil => simp [List.dropWhile_cons]
  | cons a t ih =>
    have ha : (a != ']') = true := bne_iff_ne.mpr (hx a (by simp))
    simp only [List.cons_append, List.dropWhile_cons, ha, if_true]
    exact ih (fun c hc => hx c (by simp [hc]))

/-- C5 counterexample: for the header line "[1/2/24, 3:45 PM] Bob: hi"
the captured sender is "Bob", while the text strictly between the
bracketed timestamp and the first subsequent colon is " Bob" — so the
sender field is not exactly that text. -/
theorem c5_counterexample :
    (headerMatch (sL "[1/2/24, 3:45 PM] Bob: hi")).map Msg.sender = some (sL "Bob")
    ∧ senderRegion (sL "[1/2/24, 3:45 PM] Bob: hi") = sL " Bob"
    ∧ sL "Bob" ≠ sL " Bob" := by decide

/-- C5 amended: a line is recognized as a header only if it starts with
a bracketed prefix whose time part has the `H:MM[:SS] AM/PM` shape; for
every recognized line the sender is the text strictly between the
bracketed timestamp and the first subsequent colon with its leading
whitespace removed (an all-whitespace region keeps a single final
character), and the body start is the remainder after that colon with
leading whitespace removed — even when the line contains further
colons. -/
theorem c5_header_amended :
    ∀ line m, headerMatch line = some m →
      (∃ pre rest, line = '[' :: (pre ++ ']' :: rest) ∧ ∀ c ∈ pre, c ≠ ']')
      ∧ isTimeShape m.time = true
      ∧ m.sender = senderFromLine line
      ∧ m.body = bodyFromLine line := by
  intro line m h
  obtain ⟨d, sp, t, r6, hline, hd, hsp, htime, hshape, htc, hsb⟩ := headerMatch_eq line m h
  have hpre : ∀ c ∈ d ++ ',' :: (sp ++ t), c ≠ ']' := by
    intro c hc
    simp only [List.mem_append, List.mem_cons] at hc
    rcases hc with hc | rfl | hc | hc
    · exact isDateChar_ne_rb c (hd c hc)
    · decide
    · exact isPySpace_ne_rb c (hsp c hc)
    · exact timeChar_ne_rb c (htc c hc)
  have hline' : line = '[' :: ((d ++ ',' :: (sp ++ t)) ++ ']' :: r6) := by
    rw [hline]; simp [List.append_assoc]
  have hab : afterBracket line = r6 := by
    unfold afterBracket
    rw [hline']
    have h0 : List.dropWhile (fun c => c != ']')
        ('[' :: ((d ++ ',' :: (sp ++ t)) ++ ']' :: r6))
        = List.dropWhile (fun c => c != ']') ((d ++ ',' :: (sp ++ t)) ++ ']' :: r6) := by
      rw [List.dropWhile_cons, if_pos (by decide)]
    rw [h0, dropWhile_to_rb _ _ hpre]
    rfl
  refine ⟨⟨d ++ ',' :: (sp ++ t), r6, hline', hpre⟩, htime ▸ hshape, ?_, ?_⟩
  · unfold senderBody at hsb
    simp only [] at hsb
    split at hsb
    · simp at hsb
    · split at hsb
      · simp at hsb
      · rw [Option.some.injEq, Prod.mk.injEq] at hsb
        unfold senderFromLine senderRegion
        rw [hab]
        exact hsb.1.symm
  · unfold senderBody at hsb
    simp only [] at hsb
    split at hsb
    · simp at hsb
    · split at hsb
      · simp at hsb
      · rw [Option.some.injEq, Prod.mk.injEq] at hsb
        unfold bodyFromLine senderRegion
        rw [hab]
        exact hsb.2.symm

/-- C5 witness: the amended characterization instantiated at the
concrete header line "[1/2/24, 3:45 PM] Bob: hi". -/
theorem c5_header_amended_witness :
    (∃ pre rest, sL "[1/2/24, 3:45 PM] Bob: hi" = '[' :: (pre ++ ']' :: rest)
      ∧ ∀ c ∈ pre, c ≠ ']')
    ∧ isTimeShape (Msg.mk (sL "1/2/24") (sL "3:45 PM") (sL "Bob") (sL "hi")).time = true
    ∧ (Msg.mk (sL "1/2/24") (sL "3:45 PM") (sL "Bob") (sL "hi")).sender
        = senderFromLine (sL "[1/2/24, 3:45 PM] Bob: hi")
    ∧ (Msg.mk (sL "1/2/24") (sL "3:45 PM") (sL "Bob") (sL "hi")).body
        = bodyFromLine (sL "[1/2/24, 3:45 PM] Bob: hi") :=
  c5_header_amended (sL "[1/2/24, 3:45 PM] Bob: hi")
    (Msg.mk (sL "1/2/24") (sL "3:45 PM") (sL "Bob") (sL "hi")) (by decide)

/-- C9: when the transcript cannot be read, per-file processing returns
an empty record list (no exception escapes: the function is total on the
error case), and the failure is reported through the logger output. -/
theorem c9_read_failure :
    ∀ chat pid err,
      (process_chat_file chat (Except.error err) pid).2 = []
      ∧ (process_chat_file chat (Except.error err) pid).1 ≠ [] := by
  intro chat pid err
  exact ⟨rfl, by simp [process_chat_file]⟩

end WatchParse
